import Mathlib

/-!
Verification of the graph-to-cost-operator encoding and solution-decoding
logic of `src/qaoa_maxcut.py` (QAOA Max-Cut script), as a shallow embedding.

The embedded functions are:
* `create_maxcut_operator` (via `listSet`, `makeTerm`, `buildTerms`):
  the sparse Pauli-operator builder.  The networkx graph is modelled by
  its node count `n` (`G.number_of_nodes()`) and its edge list
  (`G.edges`, in iteration order); the Python weight dict is modelled by
  an `Option`-valued lookup function (`dict.get`).  A raised Python
  exception (list-index assignment out of range) is modelled by `none`.
* `state_to_binary` (via `binDigitsAux`): the decoder
  `[int(x) for x in format(state, f'0\x7bnum_nodes\x7db')]`.
  `state_to_binary_int` additionally models the behaviour on negative
  inputs: `format` of a negative integer yields a string containing the
  sign character, on which `int(...)` raises `ValueError` (hence `none`).
* `optimal_value` / `consoleOutput`: the reporting tail of the script
  (`optimal_value = -result.eigenvalue.real`, the two `print` lines);
  real numbers are modelled by rationals.

`termValue` / `diagValue` give the standard diagonal semantics of an
{I,Z}-Pauli string: the value of a term at a computational-basis state is
its coefficient times `(-1)^(number of Z positions whose bit is 1)`,
where position `p` of the bit list corresponds to position `p` of the
Pauli string.
-/

/-- Python list-index assignment `l[i] = c` for a list of characters:
indices in `[0, len)` address directly, indices in `[-len, 0)` address
from the end, anything else raises `IndexError` (modelled as `none`). -/
def listSet (l : List Char) (i : ℤ) (c : Char) : Option (List Char) :=
  if 0 ≤ i then
    if i < (l.length : ℤ) then some (l.set i.toNat c) else none
  else
    if -(l.length : ℤ) ≤ i then some (l.set ((l.length : ℤ) + i).toNat c) else none

/-- The body of the loop of `create_maxcut_operator` for one edge `(i, j)`:
`pauli_string = ['I'] * n; pauli_string[i] = 'Z'; pauli_string[j] = 'Z'`. -/
def makeTerm (n : ℕ) (e : ℤ × ℤ) : Option (List Char) :=
  (listSet (List.replicate n 'I') e.1 'Z').bind fun t => listSet t e.2 'Z'

/-- The loop of `create_maxcut_operator`: for each edge `(i, j)` in order,
look up `w = weights.get((i, j), 1.0)`, build the Pauli string, and record
the pair `(string, w / 2)`; the first raised exception aborts the whole
call. -/
def buildTerms (n : ℕ) (weights : ℤ × ℤ → Option ℚ) :
    List (ℤ × ℤ) → Option (List (List Char × ℚ))
  | [] => some []
  | e :: es =>
    (makeTerm n e).bind fun t =>
      (buildTerms n weights es).map fun r => (t, ((weights e).getD 1) / 2) :: r

/-- `create_maxcut_operator(G, weights)` from `src/qaoa_maxcut.py`:
`n = G.number_of_nodes()`; iterate `G.edges`; return
`SparsePauliOp.from_list(list(zip(terms, coeffs)))`, modelled as the
ordered list of (Pauli-string, coefficient) pairs. -/
def create_maxcut_operator (n : ℕ) (edges : List (ℤ × ℤ))
    (weights : ℤ × ℤ → Option ℚ) : Option (List (List Char × ℚ)) :=
  buildTerms n weights edges

/-- Diagonal value of a single {I,Z} Pauli string at a basis state given
as a list of bits: each position holding `'Z'` over a `true` bit
contributes a factor `-1`, every other position contributes `1`. -/
def termValue : List Char → List Bool → ℚ
  | c :: t, x :: b => (if c = 'Z' ∧ x = true then (-1 : ℚ) else 1) * termValue t b
  | _, _ => 1

/-- Diagonal value of an operator (list of weighted Pauli terms) at a
basis state: sum of coefficient times term value. -/
def diagValue (terms : List (List Char × ℚ)) (b : List Bool) : ℚ :=
  (terms.map fun tc => tc.2 * termValue tc.1 b).sum

/-- Cut weight of the partition `b`: total weight of the edges whose two
endpoints receive different bits (weights default to 1, as in the
builder). -/
def cutWeight (edges : List (ℤ × ℤ)) (weights : ℤ × ℤ → Option ℚ)
    (b : List Bool) : ℚ :=
  (edges.map fun e =>
    if b.getD e.1.toNat false ≠ b.getD e.2.toNat false then (weights e).getD 1 else 0).sum

/-- Total weight of all edges (weights default to 1). -/
def totalWeight (edges : List (ℤ × ℤ)) (weights : ℤ × ℤ → Option ℚ) : ℚ :=
  (edges.map fun e => (weights e).getD 1).sum

/-- Binary digits of a natural number, least-significant first, with
explicit fuel (the fuel is always instantiated with the number itself,
which bounds the number of digits). `binDigitsAux s s = []` iff `s = 0`. -/
def binDigitsAux : ℕ → ℕ → List ℕ
  | _, 0 => []
  | 0, _ + 1 => []
  | fuel + 1, s + 1 => (s + 1) % 2 :: binDigitsAux fuel ((s + 1) / 2)

/-- Binary digits of `s`, least-significant first (empty for `s = 0`). -/
def pyBinDigits (s : ℕ) : List ℕ := binDigitsAux s s

/-- `state_to_binary(state, num_nodes)` from `src/qaoa_maxcut.py` for a
non-negative `state`: `format(state, f'0\x7bnum_nodes\x7db')` renders the binary
digits most-significant first (a single `'0'` for `state = 0`),
left-padded with `'0'` to width `num_nodes` (never truncated), and each
character is converted back to an integer. -/
def state_to_binary (state num_nodes : ℕ) : List ℕ :=
  let d := if pyBinDigits state = [] then [0] else pyBinDigits state
  List.replicate (num_nodes - d.length) 0 ++ d.reverse

/-- `state_to_binary` on an arbitrary integer `state`: for a negative
`state`, `format` produces a string containing the character `'-'`, on
which `int(...)` raises `ValueError` (modelled as `none`). -/
def state_to_binary_int (state : ℤ) (num_nodes : ℕ) : Option (List ℕ) :=
  if state < 0 then none else some (state_to_binary state.toNat num_nodes)

/-- Re-encoding of a bit list placing position `i` at bit position `i`
of the integer (least-significant-first reading). -/
def encodeLSB : List ℕ → ℕ
  | [] => 0
  | x :: l => x + 2 * encodeLSB l

/-- Re-encoding of a bit list placing position `i` of a length-`n` list
at bit position `n - 1 - i` of the integer (most-significant-first
reading). -/
def encodeMSB (l : List ℕ) : ℕ := l.foldl (fun a x => 2 * a + x) 0

/-- The `SolverResult` consumed by the reporting tail of the script:
`result.eigenvalue.real` (modelled as a rational) and
`result.best_measurement['state']`. -/
structure SolverResult where
  eigenvalue : ℚ
  state : ℕ

/-- `optimal_value = -result.eigenvalue.real` from `src/qaoa_maxcut.py`. -/
def optimal_value (result : SolverResult) : ℚ := -result.eigenvalue

/-- Fixed two-decimal rendering of a rational, modelling the Python
format specifier `.2f` applied to the reported value (the script formats
a float; the real value is modelled as a rational and the rounding of
`.2f` as rounding to the nearest hundredth). -/
def formatFixed2 (q : ℚ) : String :=
  let m : ℤ := round (q * 100)
  let sign := if m < 0 then "-" else ""
  let a := m.natAbs
  let frac := a % 100
  sign ++ toString (a / 100) ++ "." ++ (if frac < 10 then "0" else "") ++ toString frac

/-- The console output of the script: the two `print` calls
`print(f"Optimal Cut Value: \x7boptimal_value:.2f\x7d")` and
`print(f"Best Configuration: \x7bsolution\x7d")`, where
`solution = state_to_binary(result.best_measurement['state'], n)`. -/
def consoleOutput (result : SolverResult) (n : ℕ) : List String :=
  ["Optimal Cut Value: " ++ formatFixed2 (optimal_value result),
   "Best Configuration: " ++ toString (state_to_binary result.state n)]

/-- The edge list of the hardcoded 4-node example graph of the script. -/
def exampleEdges : List (ℤ × ℤ) := [(0, 1), (1, 2), (2, 3), (3, 0), (1, 3)]

/-- The weight dict of the script: weight 1.0 on every edge of the graph. -/
def exampleWeights : ℤ × ℤ → Option ℚ :=
  fun e => if e ∈ exampleEdges then some 1 else none

lemma getD_set_ne {α : Type} (l : List α) (i j : ℕ) (a d : α) (h : i ≠ j) :
    (l.set i a).getD j d = l.getD j d := by
  induction l generalizing i j with
  | nil => simp
  | cons x xs ih =>
    cases i with
    | zero =>
      cases j with
      | zero => exact absurd rfl h
      | succ j' => simp
    | succ i' =>
      cases j with
      | zero => simp
      | succ j' => simpa using ih i' j' (by omega)

lemma getD_set_self {α : Type} (l : List α) (k : ℕ) (a d : α) (h : k < l.length) :
    (l.set k a).getD k d = a := by
  induction l generalizing k with
  | nil => simp at h
  | cons x xs ih =>
    cases k with
    | zero => simp
    | succ k' => simpa using ih k' (by simpa using h)

lemma getD_replicate {α : Type} (m k : ℕ) (c d : α) (h : k < m) :
    (List.replicate m c).getD k d = c := by
  induction m generalizing k with
  | zero => omega
  | succ m' ih =>
    cases k with
    | zero => simp [List.replicate]
    | succ k' => simpa [List.replicate] using ih k' (by omega)

lemma termValue_replicate (m : ℕ) (b : List Bool) :
    termValue (List.replicate m 'I') b = 1 := by
  induction m generalizing b with
  | zero => simp [List.replicate, termValue]
  | succ m' ih =>
    cases b with
    | nil => simp [List.replicate, termValue]
    | cons x b' => simp [List.replicate, termValue, ih]

lemma termValue_set (t : List Char) (b : List Bool) (k : ℕ)
    (hk : k < t.length) (hkb : k < b.length) (hc : t.getD k 'I' ≠ 'Z') :
    termValue (t.set k 'Z') b
      = (if b.getD k false = true then (-1 : ℚ) else 1) * termValue t b := by
  induction t generalizing k b with
  | nil => simp at hk
  | cons c t' ih =>
    cases b with
    | nil => simp at hkb
    | cons x b' =>
      cases k with
      | zero =>
        have hcne : ¬(c = 'Z' ∧ x = true) := by
          intro hand
          exact hc (by simpa using hand.1)
        simp only [List.set, termValue, List.getD_cons_zero]
        rw [if_neg hcne]
        ring_nf
        cases x <;> simp [termValue]
      | succ k' =>
        have := ih b' k' (by simpa using hk) (by simpa using hkb) (by simpa using hc)
        simp only [List.set, termValue, List.getD_cons_succ]
        rw [this]
        ring

lemma makeTerm_nonneg (n : ℕ) (i j : ℤ) (hi0 : 0 ≤ i) (hi : i < (n : ℤ))
    (hj0 : 0 ≤ j) (hj : j < (n : ℤ)) :
    makeTerm n (i, j)
      = some (((List.replicate n 'I').set i.toNat 'Z').set j.toNat 'Z') := by
  have h1 : listSet (List.replicate n 'I') i 'Z'
      = some ((List.replicate n 'I').set i.toNat 'Z') := by
    simp [listSet, hi0, hi]
  have h2 : listSet ((List.replicate n 'I').set i.toNat 'Z') j 'Z'
      = some (((List.replicate n 'I').set i.toNat 'Z').set j.toNat 'Z') := by
    simp [listSet, hj0, hj]
  simp [makeTerm, h1, h2]

lemma termValue_ZZ (n i j : ℕ) (b : List Bool) (hb : b.length = n)
    (hi : i < n) (hj : j < n) (hij : i ≠ j) :
    termValue (((List.replicate n 'I').set i 'Z').set j 'Z') b
      = if b.getD i false = b.getD j false then (1 : ℚ) else -1 := by
  have h1 : ((List.replicate n 'I').set i 'Z').getD j 'I' ≠ 'Z' := by
    rw [getD_set_ne _ i j _ _ hij, getD_replicate n j _ _ hj]
    decide
  rw [termValue_set _ _ j (by simpa using hj) (by omega) h1]
  rw [termValue_set _ _ i (by simpa using hi) (by omega)
    (by rw [getD_replicate n i _ _ hi]; decide)]
  rw [termValue_replicate]
  cases hbi : b.getD i false <;> cases hbj : b.getD j false <;> norm_num

lemma buildTerms_diag (n : ℕ) (weights : ℤ × ℤ → Option ℚ) (b : List Bool)
    (hb : b.length = n) :
    ∀ edges : List (ℤ × ℤ),
      (∀ e ∈ edges, 0 ≤ e.1 ∧ e.1 < (n : ℤ) ∧ 0 ≤ e.2 ∧ e.2 < (n : ℤ) ∧ e.1 ≠ e.2) →
      ∃ L, buildTerms n weights edges = some L ∧
        diagValue L b = totalWeight edges weights / 2 - cutWeight edges weights b := by
  intro edges
  induction edges with
  | nil =>
    intro _
    exact ⟨[], rfl, by simp [diagValue, totalWeight, cutWeight]⟩
  | cons e es ih =>
    intro h
    obtain ⟨L', hL', hdiag⟩ := ih fun x hx => h x (List.mem_cons_of_mem _ hx)
    obtain ⟨h1, h2, h3, h4, h5⟩ := h e (List.mem_cons_self _ _)
    have hterm : makeTerm n e
        = some (((List.replicate n 'I').set e.1.toNat 'Z').set e.2.toNat 'Z') :=
      makeTerm_nonneg n e.1 e.2 h1 h2 h3 h4
    refine ⟨(((List.replicate n 'I').set e.1.toNat 'Z').set e.2.toNat 'Z',
      ((weights e).getD 1) / 2) :: L', ?_, ?_⟩
    · simp [buildTerms, hterm, hL']
    · have htv := termValue_ZZ n e.1.toNat e.2.toNat b hb (by omega) (by omega) (by omega)
      simp only [diagValue, List.map_cons, List.sum_cons] at hdiag ⊢
      rw [htv, hdiag]
      simp only [totalWeight, cutWeight, List.map_cons, List.sum_cons]
      by_cases hc : b.getD e.1.toNat false = b.getD e.2.toNat false
      · rw [if_pos hc, if_neg (not_not_intro hc)]
        ring
      · rw [if_neg hc, if_pos hc]
        ring

lemma buildTerms_some_spec (n : ℕ) (weights : ℤ × ℤ → Option ℚ) :
    ∀ (edges : List (ℤ × ℤ)) (L : List (List Char × ℚ)),
      buildTerms n weights edges = some L →
      L.length = edges.length ∧
      ∀ k, k < edges.length →
        ∃ t, makeTerm n (edges.getD k (0, 0)) = some t ∧
          L.getD k ([], 0) = (t, ((weights (edges.getD k (0, 0))).getD 1) / 2) := by
  intro edges
  induction edges with
  | nil =>
    intro L hL
    simp only [buildTerms, Option.some.injEq] at hL
    subst hL
    exact ⟨rfl, fun k hk => absurd hk (by simp)⟩
  | cons e es ih =>
    intro L hL
    cases hmk : makeTerm n e with
    | none => rw [buildTerms, hmk] at hL; simp at hL
    | some t =>
      cases hrest : buildTerms n weights es with
      | none => rw [buildTerms, hmk, hrest] at hL; simp at hL
      | some L' =>
        rw [buildTerms, hmk, hrest] at hL
        simp at hL
        obtain ⟨hlen, hspec⟩ := ih L' hrest
        subst hL
        constructor
        · simp [hlen]
        · intro k hk
          cases k with
          | zero =>
            refine ⟨t, ?_, ?_⟩
            · simpa using hmk
            · simp
          | succ k' => simpa using hspec k' (by simpa using hk)

lemma listSet_none (l : List Char) (i : ℤ) (c : Char)
    (h : i < -(l.length : ℤ) ∨ (l.length : ℤ) ≤ i) : listSet l i c = none := by
  unfold listSet
  split_ifs <;> first | rfl | (exfalso; omega)

lemma listSet_length (l : List Char) (i : ℤ) (c : Char) (t : List Char)
    (h : listSet l i c = some t) : t.length = l.length := by
  unfold listSet at h
  split_ifs at h <;> simp_all
  · subst h; simp
  · subst h; simp

lemma makeTerm_none (n : ℕ) (e : ℤ × ℤ)
    (h : e.1 < -(n : ℤ) ∨ (n : ℤ) ≤ e.1 ∨ e.2 < -(n : ℤ) ∨ (n : ℤ) ≤ e.2) :
    makeTerm n e = none := by
  unfold makeTerm
  by_cases h1 : e.1 < -(n : ℤ) ∨ (n : ℤ) ≤ e.1
  · rw [listSet_none _ _ _ (by simpa using h1)]
    rfl
  · cases hset : listSet (List.replicate n 'I') e.1 'Z' with
    | none => rfl
    | some t =>
      have hlen : t.length = n := by simpa using listSet_length _ _ _ _ hset
      have h2 : e.2 < -(n : ℤ) ∨ (n : ℤ) ≤ e.2 := by tauto
      simpa using listSet_none t e.2 'Z' (by rw [hlen]; exact h2)

lemma buildTerms_none (n : ℕ) (weights : ℤ × ℤ → Option ℚ) :
    ∀ edges : List (ℤ × ℤ), (∃ e ∈ edges, makeTerm n e = none) →
      buildTerms n weights edges = none := by
  intro edges
  induction edges with
  | nil => rintro ⟨e, he, _⟩; simp at he
  | cons e es ih =>
    rintro ⟨x, hx, hxnone⟩
    rcases List.mem_cons.mp hx with rfl | hxes
    · simp [buildTerms, hxnone]
    · rw [buildTerms, ih ⟨x, hxes, hxnone⟩]
      cases makeTerm n e <;> rfl

lemma binDigitsAux_fuel : ∀ f1 f2 s, s ≤ f1 → s ≤ f2 →
    binDigitsAux f1 s = binDigitsAux f2 s := by
  intro f1
  induction f1 with
  | zero =>
    intro f2 s h1 _
    have : s = 0 := by omega
    subst this
    simp [binDigitsAux]
  | succ f1' ih =>
    intro f2 s h1 h2
    cases s with
    | zero => simp [binDigitsAux]
    | succ s' =>
      cases f2 with
      | zero => omega
      | succ f2' =>
        simp only [binDigitsAux, List.cons.injEq, true_and]
        exact ih f2' ((s' + 1) / 2) (by omega) (by omega)

lemma pyBinDigits_succ (s : ℕ) (h : 1 ≤ s) :
    pyBinDigits s = s % 2 :: pyBinDigits (s / 2) := by
  cases s with
  | zero => omega
  | succ s' =>
    show binDigitsAux (s' + 1) (s' + 1) = _
    simp only [binDigitsAux, List.cons.injEq, true_and]
    exact binDigitsAux_fuel s' ((s' + 1) / 2) ((s' + 1) / 2) (by omega) le_rfl

lemma pyBinDigits_ne_nil (s : ℕ) (h : 1 ≤ s) : pyBinDigits s ≠ [] := by
  rw [pyBinDigits_succ s h]
  simp

lemma pyBinDigits_bounds : ∀ fuel s, s ≤ fuel →
    s < 2 ^ (binDigitsAux fuel s).length ∧
    (1 ≤ s → 1 ≤ (binDigitsAux fuel s).length ∧
      2 ^ ((binDigitsAux fuel s).length - 1) ≤ s) := by
  intro fuel
  induction fuel with
  | zero =>
    intro s h
    have : s = 0 := by omega
    subst this
    simp [binDigitsAux]
  | succ f ih =>
    intro s h
    cases s with
    | zero => simp [binDigitsAux]
    | succ s' =>
      simp only [binDigitsAux, List.length_cons]
      obtain ⟨hub, hlb⟩ := ih ((s' + 1) / 2) (by omega)
      constructor
      · have h2 : 2 ^ ((binDigitsAux f ((s' + 1) / 2)).length + 1)
            = 2 * 2 ^ (binDigitsAux f ((s' + 1) / 2)).length := by
          rw [pow_succ]; ring
        omega
      · intro _
        refine ⟨by omega, ?_⟩
        simp only [Nat.add_sub_cancel]
        by_cases hz : 1 ≤ (s' + 1) / 2
        · obtain ⟨hl1, hl2⟩ := hlb hz
          have hl : (binDigitsAux f ((s' + 1) / 2)).length - 1 + 1
              = (binDigitsAux f ((s' + 1) / 2)).length := by omega
          have h2 : 2 ^ (binDigitsAux f ((s' + 1) / 2)).length
              = 2 ^ ((binDigitsAux f ((s' + 1) / 2)).length - 1) * 2 := by
            conv_lhs => rw [← hl]
            rw [pow_succ]
          omega
        · have hs0 : (s' + 1) / 2 = 0 := by omega
          rw [hs0]
          simp [binDigitsAux]

lemma pyBinDigits_length (s : ℕ) (h : 1 ≤ s) : (pyBinDigits s).length = s.size := by
  simp only [pyBinDigits]
  obtain ⟨hub, hlb⟩ := pyBinDigits_bounds s s le_rfl
  obtain ⟨h1, h2⟩ := hlb h
  refine le_antisymm ?_ ?_
  · have := Nat.lt_size.mpr h2
    omega
  · exact Nat.size_le.mpr hub

lemma binDigitsAux_mem : ∀ fuel s x, x ∈ binDigitsAux fuel s → x = 0 ∨ x = 1 := by
  intro fuel
  induction fuel with
  | zero =>
    intro s x hx
    cases s <;> simp [binDigitsAux] at hx
  | succ f ih =>
    intro s x hx
    cases s with
    | zero => simp [binDigitsAux] at hx
    | succ s' =>
      simp only [binDigitsAux, List.mem_cons] at hx
      rcases hx with h | h
      · omega
      · exact ih _ _ h

lemma mapRange_shift (k s : ℕ) :
    (List.range k).map (fun p => s / 2 ^ (k - p) % 2)
      = (List.range k).map fun p => (s / 2) / 2 ^ (k - 1 - p) % 2 := by
  apply List.map_congr_left
  intro p hp
  rw [List.mem_range] at hp
  have hkp : k - p = (k - 1 - p) + 1 := by omega
  rw [Nat.div_div_eq_div_mul, hkp, pow_succ]
  congr 1
  ring_nf

lemma map_range_zero_digits (m : ℕ) :
    (List.range m).map (fun p => (0 : ℕ) / 2 ^ (m - 1 - p) % 2) = List.replicate m 0 := by
  rw [List.eq_replicate_iff]
  refine ⟨by simp, ?_⟩
  intro b hb
  simp only [List.mem_map] at hb
  obtain ⟨p, _, hp⟩ := hb
  simp [← hp]

lemma formDigits_eq : ∀ n s, s < 2 ^ n →
    List.replicate (n - (pyBinDigits s).length) 0 ++ (pyBinDigits s).reverse
      = (List.range n).map fun p => s / 2 ^ (n - 1 - p) % 2 := by
  intro n
  induction n with
  | zero =>
    intro s h
    have : s = 0 := by omega
    subst this
    simp [pyBinDigits, binDigitsAux]
  | succ k ih =>
    intro s h
    by_cases hs : s = 0
    · subst hs
      rw [map_range_zero_digits]
      simp [pyBinDigits, binDigitsAux]
    · have h1 : 1 ≤ s := by omega
      rw [pyBinDigits_succ s h1]
      simp only [List.length_cons, List.reverse_cons]
      have hlen : (k + 1) - ((pyBinDigits (s / 2)).length + 1)
          = k - (pyBinDigits (s / 2)).length := by omega
      rw [hlen, ← List.append_assoc]
      have hdiv : s / 2 < 2 ^ k := by
        have h2 : 2 ^ (k + 1) = 2 * 2 ^ k := by rw [pow_succ]; ring
        omega
      rw [ih (s / 2) hdiv]
      rw [List.range_succ, List.map_append, List.map_cons, List.map_nil]
      simp only [Nat.add_sub_cancel]
      congr 1
      · exact (mapRange_shift k s).symm
      · simp [Nat.sub_self]

lemma state_to_binary_eq (s n : ℕ) (h1 : 1 ≤ n) (h2 : s < 2 ^ n) :
    state_to_binary s n = (List.range n).map fun p => s / 2 ^ (n - 1 - p) % 2 := by
  simp only [state_to_binary]
  by_cases hs : s = 0
  · subst hs
    rw [map_range_zero_digits]
    have hnil : pyBinDigits 0 = [] := rfl
    rw [if_pos hnil]
    have : List.replicate (n - 1) (0 : ℕ) ++ [0] = List.replicate ((n - 1) + 1) 0 := by
      rw [List.replicate_succ']
    simp only [List.length_cons, List.length_nil, List.reverse_cons, List.reverse_nil,
      List.nil_append]
    rw [this]
    congr 1
    omega
  · rw [if_neg (pyBinDigits_ne_nil s (by omega))]
    exact formDigits_eq n s h2

lemma state_to_binary_length_pos (s n : ℕ) (h : 1 ≤ s) :
    (state_to_binary s n).length = max n s.size := by
  simp only [state_to_binary]
  rw [if_neg (pyBinDigits_ne_nil s h)]
  simp only [List.length_append, List.length_replicate, List.length_reverse]
  rw [pyBinDigits_length s h]
  omega

lemma state_to_binary_length_zero (n : ℕ) :
    (state_to_binary 0 n).length = max n 1 := by
  have hnil : pyBinDigits 0 = [] := rfl
  simp only [state_to_binary]
  rw [if_pos hnil]
  simp only [List.length_append, List.length_replicate, List.length_cons,
    List.length_nil, List.length_reverse]
  omega

lemma encodeMSB_append (l : List ℕ) (x : ℕ) :
    encodeMSB (l ++ [x]) = 2 * encodeMSB l + x := by
  simp [encodeMSB, List.foldl_append]

lemma encodeMSB_decode : ∀ n s, s < 2 ^ n →
    encodeMSB ((List.range n).map fun p => s / 2 ^ (n - 1 - p) % 2) = s := by
  intro n
  induction n with
  | zero =>
    intro s h
    have : s = 0 := by omega
    subst this
    simp [encodeMSB]
  | succ k ih =>
    intro s h
    rw [List.range_succ, List.map_append, List.map_cons, List.map_nil]
    rw [encodeMSB_append]
    simp only [Nat.add_sub_cancel]
    have hdiv : s / 2 < 2 ^ k := by
      have h2 : 2 ^ (k + 1) = 2 * 2 ^ k := by rw [pow_succ]; ring
      omega
    rw [mapRange_shift k s, ih (s / 2) hdiv]
    simp only [Nat.sub_self, pow_zero, Nat.div_one]
    omega

/-- Claim C1, counterexample: the claim says position `i` of the decoded list
equals `(index >> i) & 1` (bit 0 → node 0).  For `index = 1`, `n = 2` the code
returns `[0, 1]`, whose position 0 is `0`, while `(1 >> 0) & 1 = 1`. -/
theorem C1_counterexample :
    state_to_binary 1 2 = [0, 1] ∧ (state_to_binary 1 2).getD 0 0 ≠ 1 / 2 ^ 0 % 2 := by
  decide

/-- Claim C1, amended: for every `n ≥ 1` and every index in `[0, 2^n)`,
`state_to_binary` returns an ordered sequence of `n` bits in which position `i`
equals `(index >> (n - 1 - i)) & 1`, i.e. the decoded list is
most-significant-bit first: bit 0 of the index is the label of node `n - 1`,
not of node 0. -/
theorem C1_theorem (s n i : ℕ) (h1 : 1 ≤ n) (h2 : s < 2 ^ n) (h3 : i < n) :
    (state_to_binary s n).length = n ∧
    (state_to_binary s n).getD i 0 = s / 2 ^ (n - 1 - i) % 2 := by
  have h4 := state_to_binary_eq s n h1 h2
  constructor
  · rw [h4]; simp
  · rw [h4, List.getD_eq_getElem _ _ (by simpa using h3)]
    simp

theorem C1_witness :
    1 ≤ 2 ∧ 2 < 2 ^ 2 ∧ 1 < 2 ∧
    ((state_to_binary 2 2).length = 2 ∧
      (state_to_binary 2 2).getD 1 0 = 2 / 2 ^ (2 - 1 - 1) % 2) :=
  ⟨by decide, by decide, by decide, C1_theorem 2 2 1 (by decide) (by decide) (by decide)⟩

/-- Claim C2, counterexample: re-encoding the decoded list of `index = 1`,
`n = 2` with position `i` at bit position `i` yields `2`, not `1`. -/
theorem C2_counterexample : encodeLSB (state_to_binary 1 2) = 2 ∧ (2 : ℕ) ≠ 1 := by
  decide

/-- Claim C2, amended: for every `n ≥ 1` and every index in `[0, 2^n)`,
re-encoding the output of `state_to_binary` with output position `i` at bit
position `n - 1 - i` (most-significant-first) reproduces the index exactly. -/
theorem C2_theorem (s n : ℕ) (h1 : 1 ≤ n) (h2 : s < 2 ^ n) :
    encodeMSB (state_to_binary s n) = s := by
  rw [state_to_binary_eq s n h1 h2]
  exact encodeMSB_decode n s h2

theorem C2_witness : 1 ≤ 3 ∧ 6 < 2 ^ 3 ∧ encodeMSB (state_to_binary 6 3) = 6 :=
  ⟨by decide, by decide, C2_theorem 6 3 (by decide) (by decide)⟩

/-- Claim C5, counterexample: for `index = 4 ≥ 2^2` and `n = 2` the decoder
does not fail: it silently returns the 3-bit list `[1, 0, 0]`. -/
theorem C5_counterexample : state_to_binary_int 4 2 = some [1, 0, 0] := by
  decide

/-- Claim C5, amended: the decoder fails for every negative index (with a
`ValueError` from `int('-')`, not a dedicated `OutOfRange`), but for an index
`≥ 2^n` it does not fail: it returns a list strictly longer than `n`. -/
theorem C5_theorem (z : ℤ) (n s : ℕ) (hz : z < 0) (hs : 2 ^ n ≤ s) :
    state_to_binary_int z n = none ∧
    ∃ l, state_to_binary_int (s : ℤ) n = some l ∧ n < l.length := by
  constructor
  · simp [state_to_binary_int, hz]
  · refine ⟨state_to_binary s n, ?_, ?_⟩
    · rw [state_to_binary_int, if_neg (not_lt.mpr (Int.natCast_nonneg s))]
      rw [Int.toNat_natCast]
    · have h20 : 1 ≤ 2 ^ n := Nat.one_le_two_pow
      rw [state_to_binary_length_pos s n (by omega)]
      have := Nat.lt_size.mpr hs
      omega

theorem C5_witness :
    state_to_binary_int (-1) 2 = none ∧
    ∃ l, state_to_binary_int ((5 : ℕ) : ℤ) 2 = some l ∧ 2 < l.length :=
  C5_theorem (-1) 2 5 (by decide) (by decide)

/-- Claim C10: for every non-negative integer state and every `n ≥ 1`,
`state_to_binary` is total (no error is raised), every entry of the result is
0 or 1, and the length of the result is `max n (bit_length state)`; in
particular for `state ≥ 2^n` it silently returns a list longer than `n`. -/
theorem C10_theorem (s n : ℕ) (h : 1 ≤ n) :
    state_to_binary_int (s : ℤ) n = some (state_to_binary s n) ∧
    (state_to_binary s n).length = max n s.size ∧
    ∀ x ∈ state_to_binary s n, x = 0 ∨ x = 1 := by
  refine ⟨?_, ?_, ?_⟩
  · rw [state_to_binary_int, if_neg (not_lt.mpr (Int.natCast_nonneg s))]
    rw [Int.toNat_natCast]
  · by_cases hs : s = 0
    · subst hs
      rw [state_to_binary_length_zero, Nat.size_zero]
      omega
    · exact state_to_binary_length_pos s n (by omega)
  · intro x hx
    simp only [state_to_binary, List.mem_append, List.mem_reverse] at hx
    rcases hx with hx | hx
    · left; exact List.eq_of_mem_replicate hx
    · by_cases hd : pyBinDigits s = []
      · rw [if_pos hd] at hx
        simp at hx
        left; exact hx
      · rw [if_neg hd] at hx
        exact binDigitsAux_mem s s x hx

theorem C10_witness :
    state_to_binary_int ((9 : ℕ) : ℤ) 3 = some (state_to_binary 9 3) ∧
    (state_to_binary 9 3).length = max 3 (9 : ℕ).size ∧
    ∀ x ∈ state_to_binary 9 3, x = 0 ∨ x = 1 :=
  C10_theorem 9 3 (by decide)

/-- Claim C3: for every edge `(i, j)` of the graph with `i, j ∈ [0, n)` and
`i ≠ j`, the builder emits exactly one Pauli term for that edge (one output
term per edge, in edge order): its string has length `n` with `'Z'` at exactly
positions `i` and `j` and `'I'` at every other position, and its coefficient
is exactly `w / 2`. -/
theorem C3_theorem (n : ℕ) (edges : List (ℤ × ℤ)) (weights : ℤ × ℤ → Option ℚ)
    (L : List (List Char × ℚ)) (k : ℕ) (i j : ℤ)
    (hL : create_maxcut_operator n edges weights = some L)
    (hk : k < edges.length)
    (he : edges.getD k (0, 0) = (i, j))
    (hi0 : 0 ≤ i) (hi : i < (n : ℤ)) (hj0 : 0 ≤ j) (hj : j < (n : ℤ))
    (hij : i ≠ j) :
    L.length = edges.length ∧
    ∃ t, L.getD k ([], 0) = (t, ((weights (i, j)).getD 1) / 2) ∧
      t.length = n ∧
      ∀ p, p < n → t.getD p 'I' = if p = i.toNat ∨ p = j.toNat then 'Z' else 'I' := by
  obtain ⟨hlen, hspec⟩ := buildTerms_some_spec n weights edges L hL
  obtain ⟨t, hmk, hLk⟩ := hspec k hk
  rw [he] at hmk hLk
  rw [makeTerm_nonneg n i j hi0 hi hj0 hj] at hmk
  have ht : t = ((List.replicate n 'I').set i.toNat 'Z').set j.toNat 'Z' :=
    (Option.some.inj hmk).symm
  subst ht
  refine ⟨hlen, _, hLk, by simp, ?_⟩
  intro p hp
  by_cases hpi : p = i.toNat
  · subst hpi
    rw [if_pos (Or.inl rfl)]
    rw [getD_set_ne _ j.toNat i.toNat 'Z' 'I' (by omega)]
    exact getD_set_self _ i.toNat 'Z' 'I' (by rw [List.length_replicate]; omega)
  · by_cases hpj : p = j.toNat
    · subst hpj
      rw [if_pos (Or.inr rfl)]
      exact getD_set_self _ j.toNat 'Z' 'I'
        (by rw [List.length_set, List.length_replicate]; omega)
    · rw [if_neg (by tauto)]
      rw [getD_set_ne _ j.toNat p 'Z' 'I' (by omega)]
      rw [getD_set_ne _ i.toNat p 'Z' 'I' (by omega)]
      exact getD_replicate n p 'I' 'I' hp

theorem C3_witness :
    [(['Z', 'Z'], (1 : ℚ) / 2)].length = [((0 : ℤ), (1 : ℤ))].length ∧
    ∃ t, [(['Z', 'Z'], (1 : ℚ) / 2)].getD 0 ([], 0) = (t, (1 : ℚ) / 2) ∧
      t.length = 2 ∧
      ∀ p, p < 2 → t.getD p 'I'
        = if p = (0 : ℤ).toNat ∨ p = (1 : ℤ).toNat then 'Z' else 'I' :=
  C3_theorem 2 [((0 : ℤ), 1)] (fun _ => none) [(['Z', 'Z'], 1 / 2)] 0 0 1
    rfl (by decide) (by decide) (by decide) (by decide) (by decide)
    (by decide) (by decide)

/-- Claim C4: for every graph whose edges have distinct endpoints in `[0, n)`
and every bitstring `b` of length `n`, the builder succeeds and the diagonal
value its operator assigns to basis state `b` equals a constant independent of
`b` (half the total edge weight) minus the cut weight of the partition `b`. -/
theorem C4_theorem (n : ℕ) (edges : List (ℤ × ℤ)) (weights : ℤ × ℤ → Option ℚ)
    (b : List Bool) (hb : b.length = n)
    (hall : ∀ e ∈ edges, 0 ≤ e.1 ∧ e.1 < (n : ℤ) ∧ 0 ≤ e.2 ∧ e.2 < (n : ℤ) ∧ e.1 ≠ e.2) :
    ∃ L, create_maxcut_operator n edges weights = some L ∧
      diagValue L b = totalWeight edges weights / 2 - cutWeight edges weights b :=
  buildTerms_diag n weights b hb edges hall

theorem C4_witness :
    ∃ L, create_maxcut_operator 4 exampleEdges exampleWeights = some L ∧
      diagValue L [false, true, false, true]
        = totalWeight exampleEdges exampleWeights / 2
          - cutWeight exampleEdges exampleWeights [false, true, false, true] :=
  C4_theorem 4 exampleEdges exampleWeights [false, true, false, true]
    (by decide) (by decide)

/-- Claim C6, counterexample: the edge `(0, -1)` on a 4-node graph references
node index `-1 ∉ [0, 4)`, yet the builder does not fail: Python negative
indexing wraps the assignment to position 3, producing the term `ZIIZ`. -/
theorem C6_counterexample :
    create_maxcut_operator 4 [((0 : ℤ), -1)] (fun _ => none)
      = some [(['Z', 'I', 'I', 'Z'], 1 / 2)] := rfl

/-- Claim C6, amended: the builder fails (an uncaught `IndexError`, not a
dedicated `InvalidGraph`) whenever some edge references a node index `≥ n` or
`< -n`; indices in `[-n, 0)` are silently accepted by Python list indexing.
In particular the edge `(0, 5)` on the 4-node graph makes it fail. -/
theorem C6_theorem (n : ℕ) (edges : List (ℤ × ℤ)) (weights : ℤ × ℤ → Option ℚ)
    (h : ∃ e ∈ edges, e.1 < -(n : ℤ) ∨ (n : ℤ) ≤ e.1 ∨ e.2 < -(n : ℤ) ∨ (n : ℤ) ≤ e.2) :
    create_maxcut_operator n edges weights = none := by
  obtain ⟨e, he, hout⟩ := h
  exact buildTerms_none n weights edges ⟨e, he, makeTerm_none n e hout⟩

theorem C6_witness :
    create_maxcut_operator 4 (exampleEdges ++ [((0 : ℤ), 5)]) exampleWeights = none :=
  C6_theorem 4 (exampleEdges ++ [((0 : ℤ), 5)]) exampleWeights
    ⟨((0 : ℤ), 5), by decide, by decide⟩

/-- Claim C7: the builder is deterministic — two calls of
`create_maxcut_operator` on the same graph and weight map yield bit-identical
operator representations (same term strings in the same order with the same
coefficients).  In the embedding the builder is a pure function, so equal
inputs give equal outputs. -/
theorem C7_theorem (m n : ℕ) (edges₁ edges₂ : List (ℤ × ℤ))
    (w₁ w₂ : ℤ × ℤ → Option ℚ) (hn : m = n) (he : edges₁ = edges₂) (hw : w₁ = w₂) :
    create_maxcut_operator m edges₁ w₁ = create_maxcut_operator n edges₂ w₂ := by
  subst hn; subst he; subst hw; rfl

theorem C7_witness :
    create_maxcut_operator 4 exampleEdges exampleWeights
      = create_maxcut_operator 4 exampleEdges exampleWeights :=
  C7_theorem 4 4 exampleEdges exampleEdges exampleWeights exampleWeights rfl rfl rfl

/-- Claim C8: for every edge `(i, j)` of the graph, if the weight map has no
entry for `(i, j)` then the builder uses the default weight 1.0, so the
emitted coefficient for that edge is 0.5. -/
theorem C8_theorem (n : ℕ) (edges : List (ℤ × ℤ)) (weights : ℤ × ℤ → Option ℚ)
    (L : List (List Char × ℚ)) (k : ℕ) (i j : ℤ)
    (hL : create_maxcut_operator n edges weights = some L)
    (hk : k < edges.length)
    (he : edges.getD k (0, 0) = (i, j))
    (hw : weights (i, j) = none) :
    (L.getD k ([], 0)).2 = 1 / 2 := by
  obtain ⟨_, hspec⟩ := buildTerms_some_spec n weights edges L hL
  obtain ⟨t, _, hLk⟩ := hspec k hk
  rw [he] at hLk
  rw [hLk]
  simp [hw]

theorem C8_witness :
    ([(['Z', 'Z'], (1 : ℚ) / 2)].getD 0 ([], 0)).2 = 1 / 2 :=
  C8_theorem 2 [((0 : ℤ), 1)] (fun _ => none) [(['Z', 'Z'], 1 / 2)] 0 0 1
    rfl (by decide) (by decide) rfl

/-- Claim C9: the program reports as the optimal cut value exactly the
negation of the minimum eigenvalue returned by the solver, and the console
output consists of two lines — the optimal cut value formatted to 2 decimal
places, followed by the decoded best configuration. -/
theorem C9_theorem (result : SolverResult) (n : ℕ) :
    (consoleOutput result n).length = 2 ∧
    (consoleOutput result n).getD 0 ""
      = "Optimal Cut Value: " ++ formatFixed2 (-result.eigenvalue) ∧
    (consoleOutput result n).getD 1 ""
      = "Best Configuration: " ++ toString (state_to_binary result.state n) ∧
    optimal_value result = -result.eigenvalue :=
  ⟨rfl, rfl, rfl, rfl⟩
